import Mathlib

/-!
Shallow embedding of the calc24 repository's core: the expression
normalizer (`normalizer.js`: tokenizer, recursive-descent parser,
canonicalization, serialization) and the 24-game solver (`solver.js`:
exhaustive search over four numbers with an exact-integer-division
guard), together with proofs about the specification's claims.

Modelling conventions:
* JavaScript strings are modelled as `List Char`.
* Solver values are modelled as `Int`: all values the JS solver retains
  are integers (the inputs are integers and `/` is attempted only under
  the guard `b !== 0 && a % b === 0`), and they are far below 2^53, so
  JS float arithmetic on them is exact integer arithmetic.  The JS `%`
  is truncated remainder, i.e. `Int.tmod`; the exact `/` is `Int.tdiv`.
* The float comparison `Math.abs(v - 24) < 1e-6` in the solver's base
  case is modelled over `ℚ` as `|v - 24| < 1/1000000`; for integral `v`
  this matches the JS comparison exactly (the left side is an exact
  integer-valued float and the threshold lies strictly between 0 and 1).
* `parseInt` applied to a non-numeric token (or past the end of the
  token array) yields `NaN`; number nodes therefore carry `Option Nat`,
  with `none` playing the role of `NaN` (`toString` of which is "NaN").
* Functions that JS runs by cursor mutation or non-structural recursion
  are given a fuel parameter; all wrappers pass fuel exceeding the
  recursion depth of the corresponding JS execution, so fuel exhaustion
  never occurs on the runs any theorem below talks about.
-/

namespace Calc24

/-! ## Tokenizer (`Normalizer.tokenize`)

The JS tokenizer is `expr.match(/(\d+|\(|\)|\+|\-|\*|\/)/g) || []`: scan
left to right, turn each maximal digit run into one integer token, keep
the six operator/parenthesis characters as tokens, drop everything else.
-/

/-- Tokens produced by the tokenizer. -/
inductive Tok where
  | num (n : Nat)
  | lparen
  | rparen
  | plus
  | minus
  | star
  | slash
deriving DecidableEq, Repr

/-- Digit value of a character (only used on digit characters). -/
def digVal (c : Char) : Nat := c.toNat - 48

/-- The token, if any, denoted by a single non-digit character. -/
def symTok (c : Char) : List Tok :=
  if c = '(' then [Tok.lparen]
  else if c = ')' then [Tok.rparen]
  else if c = '+' then [Tok.plus]
  else if c = '-' then [Tok.minus]
  else if c = '*' then [Tok.star]
  else if c = '/' then [Tok.slash]
  else []

/-- Flush a pending digit run into a number token. -/
def flushPend : Option Nat → List Tok
  | none => []
  | some n => [Tok.num n]

/-- Tokenizer worker; `pend` is the value of the digit run read so far. -/
def tokenizeAux : List Char → Option Nat → List Tok
  | [], pend => flushPend pend
  | c :: cs, pend =>
    if c.isDigit then tokenizeAux cs (some (pend.getD 0 * 10 + digVal c))
    else flushPend pend ++ symTok c ++ tokenizeAux cs none

/-- `Normalizer.tokenize`, on `List Char` input. -/
def tokenize (s : List Char) : List Tok := tokenizeAux s none

/-! ## Decimal rendering (JS `Number.prototype.toString` for integers) -/

/-- Character for a single digit. -/
def digitChar (d : Nat) : Char := Char.ofNat (48 + d)

/-- Decimal digits worker (fuel-driven so that it kernel-reduces; the
fuel `n` itself always suffices since `log₁₀ n ≤ n`). -/
def natToCharsAux : Nat → Nat → List Char
  | 0, n => [digitChar n]
  | fuel + 1, n =>
    if n < 10 then [digitChar n]
    else natToCharsAux fuel (n / 10) ++ [digitChar (n % 10)]

/-- Decimal rendering of a natural number. -/
def natToChars (n : Nat) : List Char := natToCharsAux n n

/-- Decimal rendering of an integer (JS `n.toString()`). -/
def intToChars (n : Int) : List Char :=
  if n < 0 then '-' :: natToChars n.natAbs else natToChars n.toNat

/-! ## AST nodes

JS uses untagged object literals; the raw parser produces `number` and
`binary` nodes, canonicalization produces `sum` and `product` nodes.
All four live in one inductive, mirroring the dynamic typing: the JS
code dispatches on the `type` and `op` fields at run time.  A `sum`
term is `(sign, node)` with sign `±1`; a `product` factor is
`(inverse, node)`.  (JS factor objects also carry a `sign: 1` field and
the dead `factorSign` field added by the first product pass; neither is
ever read by serialization or comparison, so they are not modelled.)
-/

inductive JNode where
  | number (val : Option Nat)
  | binary (op : Char) (left right : JNode)
  | sum (terms : List (Int × JNode))
  | product (factors : List (Bool × JNode))

/-! ## Parser (`Normalizer.parse`)

Recursive descent with a mutable cursor in JS.  Here each function maps
the remaining token list to `(node, remaining)`.  Reading past the end
of the array yields `undefined`, and `parseInt(undefined)` is `NaN`:
that is the `(.number none, ...)` fallback.  After a parenthesized
expression the JS code does `cursor++` unconditionally, skipping one
token whether or not it is `)`: that is the `.drop 1`.  Trailing tokens
are ignored by the caller.  Fuel decreases at every call; three units
cover one grammar level, so `4 * length + 8` can never run out.
-/

mutual

def parseF : Nat → List Tok → JNode × List Tok
  | 0, ts => (.number none, ts)
  | _ + 1, [] => (.number none, [])
  | fuel + 1, Tok.lparen :: rest =>
    let (e, r) := parseE fuel rest
    (e, r.drop 1)
  | _ + 1, Tok.num n :: rest => (.number (some n), rest)
  | _ + 1, _ :: rest => (.number none, rest)

def parseTLoop : Nat → JNode → List Tok → JNode × List Tok
  | 0, left, ts => (left, ts)
  | fuel + 1, left, Tok.star :: rest =>
    let (r, ts') := parseF fuel rest
    parseTLoop fuel (.binary '*' left r) ts'
  | fuel + 1, left, Tok.slash :: rest =>
    let (r, ts') := parseF fuel rest
    parseTLoop fuel (.binary '/' left r) ts'
  | _ + 1, left, ts => (left, ts)

def parseT : Nat → List Tok → JNode × List Tok
  | 0, ts => (.number none, ts)
  | fuel + 1, ts =>
    let (l, r) := parseF fuel ts
    parseTLoop fuel l r

def parseELoop : Nat → JNode → List Tok → JNode × List Tok
  | 0, left, ts => (left, ts)
  | fuel + 1, left, Tok.plus :: rest =>
    let (r, ts') := parseT fuel rest
    parseELoop fuel (.binary '+' left r) ts'
  | fuel + 1, left, Tok.minus :: rest =>
    let (r, ts') := parseT fuel rest
    parseELoop fuel (.binary '-' left r) ts'
  | _ + 1, left, ts => (left, ts)

def parseE : Nat → List Tok → JNode × List Tok
  | 0, ts => (.number none, ts)
  | fuel + 1, ts =>
    let (l, r) := parseT fuel ts
    parseELoop fuel l r

end

/-- `Normalizer.parse`: parse a token list, returning the AST and the
ignored trailing tokens. -/
def parse (ts : List Tok) : JNode × List Tok := parseE (4 * ts.length + 8) ts

/-! ## Serialization (`Normalizer.serializeNode`)

`serializeF` carries fuel (one unit per tree level); every caller below
passes fuel exceeding the node's depth.  A `binary` node serializes to
`""` (the JS function's final `return ""`), `NaN.toString()` is `"NaN"`.
-/

/-- JS `Array.prototype.join(',')`. -/
def joinComma : List (List Char) → List Char
  | [] => []
  | [x] => x
  | x :: xs => x ++ ',' :: joinComma xs

/-- Sign prefix of a sum term: `t.sign > 0 ? '+' : '-'`. -/
def signChar (s : Int) : Char := if 0 < s then '+' else '-'

/-- Inverse prefix of a product factor: `f.inverse ? '/' : '*'`. -/
def invChar (b : Bool) : Char := if b then '/' else '*'

/-- `Normalizer.serializeNode`, with fuel. -/
def serializeF : Nat → JNode → List Char
  | 0, _ => []
  | _ + 1, .number none => "NaN".toList
  | _ + 1, .number (some n) => natToChars n
  | _ + 1, .binary _ _ _ => []
  | fuel + 1, .sum terms =>
    "Sum(".toList ++ joinComma (terms.map fun t => signChar t.1 :: serializeF fuel t.2) ++ [')']
  | fuel + 1, .product factors =>
    "Prod(".toList ++ joinComma (factors.map fun f => invChar f.1 :: serializeF fuel f.2) ++ [')']

/-! ## String comparison and sorting

JS `<` on strings and `localeCompare` are modelled as lexicographic
comparison of UTF-16 code units (all characters involved are ASCII).
`Array.prototype.sort` is a stable ascending sort by the comparator;
`sortCmp` is a stable insertion sort, which agrees with it for every
comparator that is a total preorder (all comparators used here are).
-/

/-- Three-way lexicographic comparison of character lists. -/
def lexCmp : List Char → List Char → Int
  | [], [] => 0
  | [], _ :: _ => -1
  | _ :: _, [] => 1
  | a :: as, b :: bs =>
    if a.toNat < b.toNat then -1
    else if b.toNat < a.toNat then 1
    else lexCmp as bs

/-- JS string `<`. -/
def lexLt (a b : List Char) : Bool := lexCmp a b < 0

/-- Stable insertion of `x` after every element comparing strictly below it. -/
def insertCmp (cmp : α → α → Int) (x : α) : List α → List α
  | [] => [x]
  | y :: ys => if cmp y x < 0 then y :: insertCmp cmp x ys else x :: y :: ys

/-- Stable ascending sort by an integer comparator. -/
def sortCmp (cmp : α → α → Int) : List α → List α
  | [] => []
  | x :: xs => insertCmp cmp x (sortCmp cmp xs)

/-! ## Flattening (`Normalizer.flattenSum` / `Normalizer.flattenProduct`) -/

/-- `Normalizer.flattenSum`: flatten a `+`/`-` spine into signed terms,
inverting the sign accumulated so far through the right operand of `-`.
Any node that is not a `+`/`-` binary becomes a single term. -/
def flattenSum : JNode → Int → List (Int × JNode)
  | .binary '+' l r, sgn => flattenSum l sgn ++ flattenSum r sgn
  | .binary '-' l r, sgn => flattenSum l sgn ++ flattenSum r (-sgn)
  | n, sgn => [(sgn, n)]

/-- `Normalizer.flattenProduct`: flatten a `*`/`/` spine into
(inverse, node) factors, toggling the inverse state through the right
operand of `/`. -/
def flattenProduct : JNode → Bool → List (Bool × JNode)
  | .binary '*' l r, inv => flattenProduct l inv ++ flattenProduct r inv
  | .binary '/' l r, inv => flattenProduct l inv ++ flattenProduct r (!inv)
  | n, inv => [(inv, n)]

/-! ## Canonicalization (`Normalizer.canonicalize`) -/

/-- `Normalizer.compareTerms`: order two sum terms by the lexicographic
order of their serialized nodes, breaking ties positive-sign-first. -/
def compareTermsF (sfuel : Nat) (a b : Int × JNode) : Int :=
  let sA := serializeF sfuel a.2
  let sB := serializeF sfuel b.2
  if lexLt sA sB then -1 else if lexLt sB sA then 1 else b.1 - a.1

/-- First product pass of `Normalizer.canonicalize` (the `normFactors`
map): when a canonicalized factor is a two-term sum whose signs are
`{+1, -1}`, rebuild it as `[+first, -second]`.  The JS code serializes
both orientations and compares them, but *both* branches of that
comparison assign the same `form1` (and a `factorSign` that is never
read), so the comparison is dead and is not modelled; the second pass
(`keyFactors`/`productKey`) is entirely dead code and is omitted. -/
def orientPass (n : JNode) : JNode :=
  match n with
  | .sum [t1, t2] =>
    if (t1.1 = 1 ∧ t2.1 = -1) ∨ (t1.1 = -1 ∧ t2.1 = 1) then
      .sum [(1, t1.2), (-1, t2.2)]
    else n
  | _ => n

/-- Final product pass of `Normalizer.canonicalize` (the `finalFactors`
map): for any factor that is a two-term sum — the signs are *not*
inspected — serialize the two term nodes and, if the first serializes
lexicographically smaller than the second, replace the factor by the
flipped difference `[+second, -first]`; otherwise keep it unchanged. -/
def finalizeFactorF (sfuel : Nat) (n : JNode) : JNode :=
  match n with
  | .sum [t1, t2] =>
    let term1Str := serializeF sfuel t1.2
    let term2Str := serializeF sfuel t2.2
    if lexLt term1Str term2Str then .sum [(1, t2.2), (-1, t1.2)] else n
  | _ => n

/-- `Normalizer.canonicalize`, with recursion fuel `fuel` (decremented
on each recursive call; one unit per level of `binary` nesting always
suffices) and serialization fuel `sfuel` passed to the comparators. -/
def canonicalizeF (sfuel : Nat) : Nat → JNode → JNode
  | 0, n => n
  | fuel + 1, n =>
    match n with
    | .number v => .number v
    | .binary op l r =>
      if op = '+' ∨ op = '-' then
        let terms := flattenSum (.binary op l r) 1
        let normTerms := terms.map fun t => (t.1, canonicalizeF sfuel fuel t.2)
        let sorted := sortCmp
          (fun a b => if a.1 ≠ b.1 then b.1 - a.1 else compareTermsF sfuel a b) normTerms
        .sum sorted
      else if op = '*' ∨ op = '/' then
        let factors := flattenProduct (.binary op l r) false
        let normFactors := factors.map fun f => (f.1, orientPass (canonicalizeF sfuel fuel f.2))
        let finalFactors := normFactors.map fun f => (f.1, finalizeFactorF sfuel f.2)
        let sorted := sortCmp
          (fun a b => lexCmp (serializeF sfuel a.2) (serializeF sfuel b.2)) finalFactors
        .product sorted
      else .binary op l r
    | other => other

/-- Size of the `binary` spine of a node; `sum`/`product` nodes are
leaves for canonicalization (the JS code returns them unchanged), so
they count 1.  This bounds both the canonicalization recursion depth
and (plus one) the depth of the canonical result. -/
def astSize : JNode → Nat
  | .binary _ l r => astSize l + astSize r + 1
  | _ => 1

/-- `Normalizer.normalize`: tokenize, parse, canonicalize, serialize. -/
def normalize (s : List Char) : List Char :=
  let ts := tokenize s
  let ast := (parse ts).1
  let sfuel := astSize ast + 2
  serializeF sfuel (canonicalizeF sfuel (astSize ast) ast)

/-! ## Solver (`solver.js`)

The search works on a list of items `{value, expr, prec}` where `prec`
is the precedence of the operation that produced `expr` (3 for atoms,
2 for `*`/`/`, 1 for `+`/`-`).  `foundSolutions` is a JS `Set` of
strings, which preserves insertion order: it is modelled as a
duplicate-free list with append-if-absent insertion.  `_search` loses
one list element per level, so fuel 4 suffices from `solve`.
-/

/-- A search item (`{ value, expr, prec }`). -/
structure SItem where
  value : Int
  expr : List Char
  prec : Nat

instance : Inhabited SItem := ⟨⟨0, [], 3⟩⟩

/-- The `PRECOF` table of `Solver._tryOp` (only ever applied to the
four operator characters). -/
def PRECOF (op : Char) : Nat := if op = '*' ∨ op = '/' then 2 else 1

/-- The value computed by `Solver._tryOp` (the `/` case is reached only
under the exact-division guard, where JS float division equals
truncated integer division). -/
def opValue (op : Char) (x y : Int) : Int :=
  if op = '+' then x + y
  else if op = '-' then x - y
  else if op = '*' then x * y
  else x.tdiv y

/-- The `format` helper of `Solver._tryOp`: parenthesize a child whose
producing operation binds less tightly, or binds equally on the right
of `-`/`/`. -/
def format (myPrec : Nat) (op : Char) (it : SItem) (isRight : Bool) : List Char :=
  if it.prec < myPrec ∨ (it.prec = myPrec ∧ isRight = true ∧ (op = '-' ∨ op = '/')) then
    '(' :: it.expr ++ [')']
  else it.expr

/-- The new item built by `Solver._tryOp` before recursing. -/
def mkItem (a b : SItem) (op : Char) : SItem :=
  let myPrec := PRECOF op
  { value := opValue op a.value b.value
    expr := format myPrec op a false ++ ' ' :: op :: ' ' :: format myPrec op b true
    prec := myPrec }

/-- JS `Set.prototype.add` on an insertion-ordered set of strings. -/
def insertSol (s : List Char) (acc : List (List Char)) : List (List Char) :=
  if s ∈ acc then acc else acc ++ [s]

/-- Insertion-ordered-set contents after adding every string of `l` in
order: `Set` iteration yields the first occurrence of each element in
insertion order. -/
def foundSet (l : List (List Char)) : List (List Char) :=
  l.foldl (fun acc s => insertSol s acc) []

/-- The division guard of `Solver._search`:
`b.value !== 0 && a.value % b.value === 0` (JS `%` is truncated
remainder, `Int.tmod`). -/
def divGuard (a b : Int) : Bool := b != 0 && a.tmod b == 0

/-- `items.filter((_, idx) => idx !== i && idx !== j)`, with `k` the
index of the head of the remaining list. -/
def filterIdx (i j : Nat) : Nat → List SItem → List SItem
  | _, [] => []
  | k, x :: xs =>
    if k ≠ i ∧ k ≠ j then x :: filterIdx i j (k + 1) xs else filterIdx i j (k + 1) xs

/-- The acceptance test of the search's base case: the JS
`Math.abs(items[0].value - this.target) < 1e-6` comparison with
`target = 24`.  For integral `v` the comparison is exact, and
`|v - 24| < 1/1000000` is written cross-multiplied so that it computes
by integer arithmetic; claim C5's theorem proves it equal to the
rational-arithmetic comparison. -/
def accepts (v : Int) : Bool := (v - 24).natAbs * 1000000 < 1

/-- The successor item lists visited by one level of `Solver._search`,
in the JS iteration order: for every ordered pair `(i, j)` of distinct
indices and every permitted operator (`+`, `-`, `*` always, `/` only
under `divGuard`), the remaining items plus the item `_tryOp` builds. -/
def nextLists (items : List SItem) : List (List SItem) :=
  (List.range items.length).flatMap fun i =>
    (List.range items.length).flatMap fun j =>
      if i = j then []
      else
        let a := items.getD i default
        let b := items.getD j default
        let base := filterIdx i j 0 items
        let ops := if divGuard a.value b.value then ['+', '-', '*', '/'] else ['+', '-', '*']
        ops.map fun op => base ++ [mkItem a b op]

/-- `Solver._search`.  The JS function mutates the insertion-ordered set
`this.foundSolutions`; here the search instead returns the list of
accepted item texts in the JS traversal order (with duplicates), and
`solve` applies `foundSet` to it — first-occurrence deduplication in
traversal order — which is exactly the contents of the JS set. -/
def search : Nat → List SItem → List (List Char)
  | 0, _ => []
  | fuel + 1, items =>
    match items with
    | [it] => if accepts it.value then [it.expr] else []
    | _ => (nextLists items).flatMap fun next => search fuel next

/-- `Solver.solve`: guard the arity, search from four atoms, then
deduplicate the found strings by their normalized signature,
first-seen-wins.  The JS `try`/`catch` around `normalize` cannot fire
(the embedded `normalize` is total, as is the JS one on every string),
so the fallback branch that keeps an unnormalizable string is absent. -/
def solve (numbers : List Int) : List (List Char) :=
  if numbers.length ≠ 4 then []
  else
    let initialItems := numbers.map fun n => SItem.mk n (intToChars n) 3
    let found := foundSet (search 4 initialItems)
    (found.foldl (fun st sol =>
      let sig := normalize sol
      if sig ∈ st.2 then st else (st.1 ++ [sol], st.2 ++ [sig])) ([], [])).1

/-! ## The canonical-tree invariant (claim C9) -/

/-- Raw ASTs: the node shapes the parser can produce — numbers and
binaries over the four operator characters. -/
inductive RawAst : JNode → Prop
  | number (v : Option Nat) : RawAst (.number v)
  | binary (op : Char) (l r : JNode) :
      op ∈ (['+', '-', '*', '/'] : List Char) →
      RawAst l → RawAst r → RawAst (.binary op l r)

/-- Is the node a `+`/`-` binary? -/
def isAddSubRoot : JNode → Bool
  | .binary op _ _ => op == '+' || op == '-'
  | _ => false

/-- Is the node a `*`/`/` binary? -/
def isMulDivRoot : JNode → Bool
  | .binary op _ _ => op == '*' || op == '/'
  | _ => false

/-- Is the node a sum? -/
def isSumNode : JNode → Bool
  | .sum _ => true
  | _ => false

/-- Is the node a product? -/
def isProdNode : JNode → Bool
  | .product _ => true
  | _ => false

/-- The canonical-tree invariant: the tree consists of number, sum and
product nodes only, no sum has a sum as the node of a direct term, and
no product has a product as the node of a direct factor. -/
inductive NoNest : JNode → Prop
  | number (v : Option Nat) : NoNest (.number v)
  | sum (ts : List (Int × JNode)) :
      (∀ p ∈ ts, isSumNode p.2 = false) →
      (∀ p ∈ ts, NoNest p.2) → NoNest (.sum ts)
  | product (fs : List (Bool × JNode)) :
      (∀ p ∈ fs, isProdNode p.2 = false) →
      (∀ p ∈ fs, NoNest p.2) → NoNest (.product fs)

/-! ## Solver soundness (claim C1)

The soundness claim is about the strings the solver emits, read under
standard arithmetic precedence.  `evalString` below is that reading:
tokenize, parse the whole token stream with the standard-precedence
left-associative grammar (the very grammar of `Normalizer.parse`),
demand that no tokens remain, and evaluate over `ℚ` (division by zero
or a NaN operand yields `none`).

The proof is a printer/parser argument.  `FactorToks`/`TermToksD`/
`ExprToksD` are (ghost, `Type`-valued) derivations witnessing that a
token list is generated by the factor/term/expression level of the
grammar with a given rational value; `MDChain`/`PMChain` witness the
`(('*'|'/') Factor)*` and `(('+'|'-') Term)*` loop tails starting from
an accumulated value.  The bridge lemmas show the parser maps a derived
token list (followed by any suffix the loops will not consume) to an
AST evaluating to the derived value; the search invariant shows every
item the solver builds carries a derivation for its own value.
-/

/-- Evaluation of a parsed AST over `ℚ`: `none` for NaN literals,
division by zero, and non-raw nodes. -/
def evalAst : JNode → Option ℚ
  | .number none => none
  | .number (some n) => some (n : ℚ)
  | .binary op l r =>
    match evalAst l, evalAst r with
    | some x, some y =>
      if op = '+' then some (x + y)
      else if op = '-' then some (x - y)
      else if op = '*' then some (x * y)
      else if op = '/' then (if y = 0 then none else some (x / y))
      else none
    | _, _ => none
  | .sum _ => none
  | .product _ => none

/-- Standard-precedence evaluation of an expression string. -/
def evalString (s : List Char) : Option ℚ :=
  match parse (tokenize s) with
  | (a, []) => evalAst a
  | _ => none

/-- The term-loop does not consume the head of this list. -/
def noMulDivHead : List Tok → Prop
  | Tok.star :: _ => False
  | Tok.slash :: _ => False
  | _ => True

/-- The expression-loop does not consume the head of this list. -/
def noAddSubHead : List Tok → Prop
  | Tok.plus :: _ => False
  | Tok.minus :: _ => False
  | _ => True

mutual

inductive FactorToks : List Tok → ℚ → Type where
  | num (n : Nat) : FactorToks [Tok.num n] (n : ℚ)
  | paren {ts : List Tok} {v : ℚ} : ExprToksD ts v →
      FactorToks (Tok.lparen :: (ts ++ [Tok.rparen])) v

inductive MDChain : ℚ → List Tok → ℚ → Type where
  | nil (v : ℚ) : MDChain v [] v
  | mul {fs ts : List Tok} {v w u : ℚ} : FactorToks fs w → MDChain (v * w) ts u →
      MDChain v (Tok.star :: (fs ++ ts)) u
  | div {fs ts : List Tok} {v w u : ℚ} : FactorToks fs w → w ≠ 0 → MDChain (v / w) ts u →
      MDChain v (Tok.slash :: (fs ++ ts)) u

inductive TermToksD : List Tok → ℚ → Type where
  | mk {fs ts : List Tok} {v0 v : ℚ} : FactorToks fs v0 → MDChain v0 ts v →
      TermToksD (fs ++ ts) v

inductive PMChain : ℚ → List Tok → ℚ → Type where
  | nil (v : ℚ) : PMChain v [] v
  | add {ts' ts : List Tok} {v w u : ℚ} : TermToksD ts' w → PMChain (v + w) ts u →
      PMChain v (Tok.plus :: (ts' ++ ts)) u
  | sub {ts' ts : List Tok} {v w u : ℚ} : TermToksD ts' w → PMChain (v - w) ts u →
      PMChain v (Tok.minus :: (ts' ++ ts)) u

inductive ExprToksD : List Tok → ℚ → Type where
  | mk {ts ts' : List Tok} {v0 v : ℚ} : TermToksD ts v0 → PMChain v0 ts' v →
      ExprToksD (ts ++ ts') v

end

/-- Concatenation of multiplicative chain tails. -/
def MDChain.concat {v u z : ℚ} {ts ts' : List Tok} :
    MDChain v ts u → MDChain u ts' z → MDChain v (ts ++ ts') z
  | .nil _, c => c
  | .mul f c1, c => by
    rw [List.cons_append, List.append_assoc]
    exact MDChain.mul f (c1.concat c)
  | .div f h c1, c => by
    rw [List.cons_append, List.append_assoc]
    exact MDChain.div f h (c1.concat c)

/-- Multiplying the accumulated value through a multiplicative chain. -/
def MDChain.shift {v u : ℚ} {ts : List Tok} (x : ℚ) :
    MDChain v ts u → MDChain (x * v) ts (x * u)
  | .nil _ => .nil _
  | .mul f c => by
    refine MDChain.mul f ?_
    rw [mul_assoc]
    exact c.shift x
  | .div f h c => by
    refine MDChain.div f h ?_
    rw [mul_div_assoc]
    exact c.shift x

/-- Concatenation of additive chain tails. -/
def PMChain.concat {v u z : ℚ} {ts ts' : List Tok} :
    PMChain v ts u → PMChain u ts' z → PMChain v (ts ++ ts') z
  | .nil _, c => c
  | .add t c1, c => by
    rw [List.cons_append, List.append_assoc]
    exact PMChain.add t (c1.concat c)
  | .sub t c1, c => by
    rw [List.cons_append, List.append_assoc]
    exact PMChain.sub t (c1.concat c)

/-- Adding to the accumulated value through an additive chain. -/
def PMChain.shift {v u : ℚ} {ts : List Tok} (x : ℚ) :
    PMChain v ts u → PMChain (x + v) ts (x + u)
  | .nil _ => .nil _
  | .add t c => by
    refine PMChain.add t ?_
    rw [add_assoc]
    exact c.shift x
  | .sub t c => by
    refine PMChain.sub t ?_
    rw [add_sub_assoc]
    exact c.shift x

/-- A factor is a term. -/
def FactorToks.toTermD {ts : List Tok} {v : ℚ} (d : FactorToks ts v) : TermToksD ts v := by
  rw [show ts = ts ++ [] by rw [List.append_nil]]
  exact TermToksD.mk d (MDChain.nil v)

/-- A term is an expression. -/
def TermToksD.toExprD {ts : List Tok} {v : ℚ} (d : TermToksD ts v) : ExprToksD ts v := by
  rw [show ts = ts ++ [] by rw [List.append_nil]]
  exact ExprToksD.mk d (PMChain.nil v)

/-- Append `+ Term` to an expression. -/
def ExprToksD.addTerm {ta tb : List Tok} {va vb : ℚ}
    (da : ExprToksD ta va) (db : TermToksD tb vb) : ExprToksD (ta ++ Tok.plus :: tb) (va + vb) :=
  match da with
  | .mk t0 pm => by
    rw [List.append_assoc]
    refine ExprToksD.mk t0 (pm.concat ?_)
    have h := PMChain.add db (PMChain.nil (va + vb))
    rwa [List.append_nil] at h

/-- Append `- Term` to an expression. -/
def ExprToksD.subTerm {ta tb : List Tok} {va vb : ℚ}
    (da : ExprToksD ta va) (db : TermToksD tb vb) : ExprToksD (ta ++ Tok.minus :: tb) (va - vb) :=
  match da with
  | .mk t0 pm => by
    rw [List.append_assoc]
    refine ExprToksD.mk t0 (pm.concat ?_)
    have h := PMChain.sub db (PMChain.nil (va - vb))
    rwa [List.append_nil] at h

/-- Append `+ Expression` to an expression (used for `a + b` when `b`
itself is an unparenthesized additive chain). -/
def ExprToksD.addExpr {ta tb : List Tok} {va vb : ℚ}
    (da : ExprToksD ta va) (db : ExprToksD tb vb) : ExprToksD (ta ++ Tok.plus :: tb) (va + vb) :=
  match da, db with
  | .mk t0 pm, .mk tb0 pmb => by
    rw [List.append_assoc]
    exact ExprToksD.mk t0 (pm.concat (PMChain.add tb0 (pmb.shift va)))

/-- Append `* Term` to a term (used for `a * b` when `b` is an
unparenthesized multiplicative chain, and via `toTermD` for atoms). -/
def TermToksD.mulTerm {ta tb : List Tok} {va vb : ℚ}
    (da : TermToksD ta va) (db : TermToksD tb vb) : TermToksD (ta ++ Tok.star :: tb) (va * vb) :=
  match da, db with
  | .mk f0 md, .mk fb0 mdb => by
    rw [List.append_assoc]
    exact TermToksD.mk f0 (md.concat (MDChain.mul fb0 (mdb.shift va)))

/-- Append `/ Factor` to a term. -/
def TermToksD.divFactor {ta tb : List Tok} {va vb : ℚ}
    (da : TermToksD ta va) (db : FactorToks tb vb) (h : vb ≠ 0) :
    TermToksD (ta ++ Tok.slash :: tb) (va / vb) :=
  match da with
  | .mk f0 md => by
    rw [List.append_assoc]
    refine TermToksD.mk f0 (md.concat ?_)
    have h2 := MDChain.div db h (MDChain.nil (va / vb))
    rwa [List.append_nil] at h2

/-! ### The search invariant -/

/-- The search invariant: an item's text tokenizes to a fragment of the
grammar level recorded in `prec` (3 = factor, 2 = term, 1 = expression)
deriving the item's own value. -/
def ItemOK (it : SItem) : Prop :=
  (it.prec = 3 ∧ Nonempty (FactorToks (tokenize it.expr) (it.value : ℚ)))
  ∨ (it.prec = 2 ∧ Nonempty (TermToksD (tokenize it.expr) (it.value : ℚ)))
  ∨ (it.prec = 1 ∧ Nonempty (ExprToksD (tokenize it.expr) (it.value : ℚ)))

/-! ## Theorems -/

/-! ## Helper lemmas -/

/-- `lexCmp` is antisymmetric. -/
theorem lexCmp_swap (a b : List Char) : lexCmp b a = -lexCmp a b := by
  induction a generalizing b with
  | nil => cases b <;> simp [lexCmp]
  | cons x xs ih =>
    cases b with
    | nil => simp [lexCmp]
    | cons y ys =>
      simp only [lexCmp]
      split_ifs <;> first | exact ih ys | omega

/-- If `a` compares lexicographically below `b` then `b` does not
compare below `a`. -/
theorem lexLt_asymm {a b : List Char} (h : lexLt a b = true) : lexLt b a = false := by
  simp only [lexLt, decide_eq_true_eq] at h
  simp only [lexLt, decide_eq_false_iff_not]
  rw [lexCmp_swap]
  omega

/-- The base-case acceptance test is exact integer equality with 24. -/
theorem accepts_iff_eq (v : Int) : accepts v = true ↔ v = 24 := by
  simp only [accepts, decide_eq_true_eq]
  constructor
  · intro h
    have : (v - 24).natAbs = 0 := by
      rcases Nat.eq_zero_or_pos (v - 24).natAbs with h0 | h0
      · exact h0
      · omega
    omega
  · intro h; subst h; simp

/-! ## The claims -/

/-- C10: for every input list whose length is not exactly 4,
`Solver.solve` returns the empty list (no search, no solutions, no
error). -/
theorem solve_arity_guard (ns : List Int) (h : ns.length ≠ 4) : solve ns = [] := by
  unfold solve
  rw [if_pos h]

/-- Witness for C10 at the concrete input `[1, 2, 3]`. -/
theorem solve_arity_guard_witness :
    ([1, 2, 3] : List Int).length ≠ 4 ∧ solve [1, 2, 3] = [] :=
  ⟨by decide, solve_arity_guard [1, 2, 3] (by decide)⟩

set_option maxRecDepth 4000000 in
/-- C2: a division is attempted by the search only when the divisor is
nonzero and divides the dividend exactly (the `divGuard` used by
`search`/`nextLists` is exactly that condition), and consequently
`solve [3,3,8,8]` — solvable only through non-exact division — returns
the empty collection. -/
theorem division_exactness :
    (∀ a b : Int, divGuard a b = true ↔ (b ≠ 0 ∧ a.tmod b = 0)) ∧
    solve [3, 3, 8, 8] = [] := by
  refine ⟨fun a b => ?_, by decide⟩
  simp [divGuard]

/-- C5: the base-case acceptance test (`|v - 24| < 1e-6`) agrees with
the rational-arithmetic comparison, is equivalent to exact integer
equality `v = 24` (every retained value is an integer by construction),
and the search's singleton case records the item's text exactly when
its value is 24. -/
theorem base_case_exactness :
    (∀ v : Int, accepts v = true ↔ |(v : ℚ) - 24| < 1 / 1000000) ∧
    (∀ v : Int, accepts v = true ↔ v = 24) ∧
    (∀ fuel it, search (fuel + 1) [it] = if it.value = 24 then [it.expr] else []) := by
  have habs : ∀ v : Int, (|(v : ℚ) - 24| : ℚ) = ((v - 24).natAbs : ℚ) := by
    intro v
    rw [show ((v : ℚ) - 24) = (((v - 24 : ℤ) : ℚ)) by push_cast; ring,
      Int.cast_natAbs, Int.cast_abs]
  have hint : ∀ v : Int, accepts v = true ↔ v = 24 := accepts_iff_eq
  refine ⟨fun v => ?_, hint, fun fuel it => ?_⟩
  · simp only [accepts, decide_eq_true_eq, habs]
    rw [lt_div_iff₀ (by norm_num : (0 : ℚ) < 1000000)]
    constructor
    · intro h
      have : (((v - 24).natAbs * 1000000 : ℕ) : ℚ) < ((1 : ℕ) : ℚ) := Nat.cast_lt.mpr h
      push_cast at this
      linarith
    · intro h
      have : (((v - 24).natAbs * 1000000 : ℕ) : ℚ) < ((1 : ℕ) : ℚ) := by push_cast; linarith
      exact_mod_cast this
  · show (if accepts it.value then [it.expr] else []) = _
    rcases Decidable.em (it.value = 24) with h | h
    · rw [if_pos ((hint it.value).mpr h), if_pos h]
    · rw [if_neg (fun hc => h ((hint it.value).mp (by rw [hc]))), if_neg h]

/-- C6: additive reassociation with sign distribution and term
reordering normalize to the same signature:
`normalize "11 + 9 + 6 - 2" = normalize "11 - (2 - 6 - 9)"` and
`normalize "9 + 6 - 2 + 11" = normalize "11 + 9 + 6 - 2"`. -/
theorem sum_flattening_equivalence :
    normalize "11 + 9 + 6 - 2".toList = normalize "11 - (2 - 6 - 9)".toList ∧
    normalize "9 + 6 - 2 + 11".toList = normalize "11 + 9 + 6 - 2".toList := by
  exact ⟨by decide, by decide⟩

/-- C7: normalize identifies commuted products and flipped differences
inside products but distinguishes distributed forms:
`normalize "4 * 6" = normalize "6 * 4"`,
`normalize "(4+8)*(13-11)" = normalize "(13-11)*(8+4)"`, and
`normalize "4*(6+1)" ≠ normalize "4*6+4*1"`. -/
theorem product_equivalence_and_non_distribution :
    normalize "4 * 6".toList = normalize "6 * 4".toList ∧
    normalize "(4+8)*(13-11)".toList = normalize "(13-11)*(8+4)".toList ∧
    normalize "4*(6+1)".toList ≠ normalize "4*6+4*1".toList := by
  exact ⟨by decide, by decide, by decide⟩

/-- Counterexample to C4: on the non-empty input `"abc"` the tokenizer
produces no tokens, yet `normalize` does not fail with a raised
`TokenizeError` — it silently returns the signature string `"NaN"`
(parsing the empty token stream yields a NaN number node).  The
normalizer has no raised-error path at all. -/
theorem error_raising_counterexample :
    "abc".toList ≠ [] ∧ tokenize "abc".toList = [] ∧
    normalize "abc".toList = "NaN".toList := by
  exact ⟨by decide, by decide, by decide⟩

/-- C4 amended: `normalize` never raises.  A tokenless non-empty input
yields the signature `"NaN"`; grammar mismatches are silently absorbed:
a premature end of input parses the missing operand as NaN
(`"1+" ↦ "Sum(+1,+NaN)"`), an unmatched `(` is accepted as if closed
(`"(1+2" ↦ normalize "1+2"`), and two operators in a row parse the
second operator as a NaN operand, ignoring trailing tokens
(`"1++2" ↦ "Sum(+1,+NaN)"`). -/
theorem error_raising_amended :
    normalize "abc".toList = "NaN".toList ∧
    normalize "1+".toList = "Sum(+1,+NaN)".toList ∧
    normalize "(1+2".toList = normalize "1+2".toList ∧
    normalize "1++2".toList = "Sum(+1,+NaN)".toList := by
  exact ⟨by decide, by decide, by decide, by decide⟩

/-- Counterexample to C8: normalization is not idempotent.  For the
well-formed expression `"1+2"` the signature is `"Sum(+1,+2)"`, but
normalizing that signature string yields `"Sum(+2,+NaN)"` — the
signature syntax is outside the expression grammar, so its `(`, `+` and
digits retokenize into a different token stream. -/
theorem idempotence_counterexample :
    normalize "1+2".toList = "Sum(+1,+2)".toList ∧
    normalize (normalize "1+2".toList) = "Sum(+2,+NaN)".toList ∧
    normalize (normalize "1+2".toList) ≠ normalize "1+2".toList := by
  exact ⟨by decide, by decide, by decide⟩

/-- C8 amended: re-normalizing the serialized signature string does not
in general reproduce the signature; what holds is idempotence at the
node level — `canonicalize` maps every already-canonical node kind
(number, sum, product) to itself, so canonicalizing a canonical tree a
second time changes nothing. -/
theorem idempotence_amended :
    ∀ sfuel fuel v ts fs,
      canonicalizeF sfuel (fuel + 1) (JNode.number v) = JNode.number v ∧
      canonicalizeF sfuel (fuel + 1) (JNode.sum ts) = JNode.sum ts ∧
      canonicalizeF sfuel (fuel + 1) (JNode.product fs) = JNode.product fs := by
  intro sfuel fuel v ts fs
  exact ⟨rfl, rfl, rfl⟩

/-- Counterexample to C3: the factor `(2-3)` of `"(2-3)*5"`
canonicalizes to the two-term difference `Sum(+2,-3)`, whose
serialization is lexicographically smaller than that of the flipped
orientation `Sum(+3,-2)`; the engine nevertheless keeps `Sum(+3,-2)`,
i.e. the lexicographically larger orientation, in the final signature. -/
theorem diff_orientation_counterexample :
    normalize "(2-3)*5".toList = "Prod(*5,*Sum(+3,-2))".toList ∧
    lexLt "Sum(+2,-3)".toList "Sum(+3,-2)".toList = true ∧
    finalizeFactorF 9 (JNode.sum [(1, .number (some 2)), (-1, .number (some 3))]) =
      JNode.sum [(1, .number (some 3)), (-1, .number (some 2))] := by
  exact ⟨by decide, by decide, rfl⟩

/-- C3 amended: for a product factor that is a two-term difference
`[+A, -B]`, the final pass keeps an orientation built from the same two
operands whose *positive* operand does not serialize lexicographically
smaller than the negative one — i.e. it keeps the lexicographically
larger of the two orientations, not the smaller; moreover the pass
tests only that the factor is a two-term sum, not its signs, so a
two-term sum of positives is likewise rewritten into a difference
(`2+3 ↦ 3-2`). -/
theorem diff_orientation_amended :
    (∀ sfuel (A B : JNode), ∃ P N : JNode,
      finalizeFactorF sfuel (JNode.sum [(1, A), (-1, B)]) = JNode.sum [(1, P), (-1, N)] ∧
      ((P = A ∧ N = B) ∨ (P = B ∧ N = A)) ∧
      lexLt (serializeF sfuel P) (serializeF sfuel N) = false) ∧
    finalizeFactorF 9 (JNode.sum [(1, .number (some 2)), (1, .number (some 3))]) =
      JNode.sum [(1, .number (some 3)), (-1, .number (some 2))] := by
  refine ⟨fun sfuel A B => ?_, rfl⟩
  by_cases h : lexLt (serializeF sfuel A) (serializeF sfuel B) = true
  · refine ⟨B, A, ?_, Or.inr ⟨rfl, rfl⟩, lexLt_asymm h⟩
    simp [finalizeFactorF, h]
  · refine ⟨A, B, ?_, Or.inl ⟨rfl, rfl⟩, by simpa using h⟩
    simp [finalizeFactorF, Bool.not_eq_true _ ▸ h]

theorem astSize_pos (n : JNode) : 1 ≤ astSize n := by
  cases n <;> simp [astSize]

theorem mem_insertCmp {cmp : α → α → Int} {x y : α} {l : List α} :
    y ∈ insertCmp cmp x l ↔ y ∈ x :: l := by
  induction l with
  | nil => simp [insertCmp]
  | cons z zs ih =>
    simp only [insertCmp]
    split_ifs
    · simp only [List.mem_cons] at ih ⊢
      tauto
    · simp

theorem mem_sortCmp {cmp : α → α → Int} {y : α} {l : List α} :
    y ∈ sortCmp cmp l ↔ y ∈ l := by
  induction l with
  | nil => simp [sortCmp]
  | cons x xs ih => simp [sortCmp, mem_insertCmp, ih]

/-- Every term produced by `flattenSum` from a raw AST is a raw subtree
of at most the same size that is not itself a `+`/`-` binary. -/
theorem flattenSum_mem {n : JNode} (hn : RawAst n) :
    ∀ sgn p, p ∈ flattenSum n sgn →
      RawAst p.2 ∧ astSize p.2 ≤ astSize n ∧ isAddSubRoot p.2 = false := by
  induction hn with
  | number v => intro sgn p hp; simp only [flattenSum, List.mem_singleton] at hp; subst hp
                exact ⟨RawAst.number v, le_refl _, rfl⟩
  | binary op l r hop hl hr ihl ihr =>
    intro sgn p hp
    simp only [List.mem_cons, List.mem_singleton, List.not_mem_nil, or_false] at hop
    rcases hop with h | h | h | h <;> subst h
    · simp only [flattenSum, List.mem_append] at hp
      rcases hp with hp | hp
      · obtain ⟨h1, h2, h3⟩ := ihl sgn p hp
        exact ⟨h1, by simp [astSize]; omega, h3⟩
      · obtain ⟨h1, h2, h3⟩ := ihr sgn p hp
        exact ⟨h1, by simp [astSize]; omega, h3⟩
    · simp only [flattenSum, List.mem_append] at hp
      rcases hp with hp | hp
      · obtain ⟨h1, h2, h3⟩ := ihl sgn p hp
        exact ⟨h1, by simp [astSize]; omega, h3⟩
      · obtain ⟨h1, h2, h3⟩ := ihr (-sgn) p hp
        exact ⟨h1, by simp [astSize]; omega, h3⟩
    · simp only [flattenSum, List.mem_singleton] at hp
      subst hp
      exact ⟨RawAst.binary '*' l r (by simp) hl hr, le_refl _, rfl⟩
    · simp only [flattenSum, List.mem_singleton] at hp
      subst hp
      exact ⟨RawAst.binary '/' l r (by simp) hl hr, le_refl _, rfl⟩

/-- Every factor produced by `flattenProduct` from a raw AST is a raw
subtree of at most the same size that is not itself a `*`/`/` binary. -/
theorem flattenProduct_mem {n : JNode} (hn : RawAst n) :
    ∀ inv p, p ∈ flattenProduct n inv →
      RawAst p.2 ∧ astSize p.2 ≤ astSize n ∧ isMulDivRoot p.2 = false := by
  induction hn with
  | number v => intro inv p hp; simp only [flattenProduct, List.mem_singleton] at hp; subst hp
                exact ⟨RawAst.number v, le_refl _, rfl⟩
  | binary op l r hop hl hr ihl ihr =>
    intro inv p hp
    simp only [List.mem_cons, List.mem_singleton, List.not_mem_nil, or_false] at hop
    rcases hop with h | h | h | h <;> subst h
    · simp only [flattenProduct, List.mem_singleton] at hp
      subst hp
      exact ⟨RawAst.binary '+' l r (by simp) hl hr, le_refl _, rfl⟩
    · simp only [flattenProduct, List.mem_singleton] at hp
      subst hp
      exact ⟨RawAst.binary '-' l r (by simp) hl hr, le_refl _, rfl⟩
    · simp only [flattenProduct, List.mem_append] at hp
      rcases hp with hp | hp
      · obtain ⟨h1, h2, h3⟩ := ihl inv p hp
        exact ⟨h1, by simp [astSize]; omega, h3⟩
      · obtain ⟨h1, h2, h3⟩ := ihr inv p hp
        exact ⟨h1, by simp [astSize]; omega, h3⟩
    · simp only [flattenProduct, List.mem_append] at hp
      rcases hp with hp | hp
      · obtain ⟨h1, h2, h3⟩ := ihl inv p hp
        exact ⟨h1, by simp [astSize]; omega, h3⟩
      · obtain ⟨h1, h2, h3⟩ := ihr (!inv) p hp
        exact ⟨h1, by simp [astSize]; omega, h3⟩

/-- Canonicalizing a raw node that is not a `+`/`-` binary cannot yield
a sum. -/
theorem canon_not_sum {b : JNode} (hb : RawAst b) (h : isAddSubRoot b = false)
    (sfuel f : Nat) : isSumNode (canonicalizeF sfuel (f + 1) b) = false := by
  cases hb with
  | number v => rfl
  | binary op l r hop hl hr =>
    simp only [List.mem_cons, List.mem_singleton, List.not_mem_nil, or_false] at hop
    simp only [isAddSubRoot, Bool.or_eq_false_iff, beq_eq_false_iff_ne, ne_eq] at h
    rcases hop with h' | h' | h' | h' <;> subst h'
    · exact absurd rfl h.1
    · exact absurd rfl h.2
    · rfl
    · rfl

/-- Canonicalizing a raw node that is not a `*`/`/` binary cannot yield
a product. -/
theorem canon_not_prod {b : JNode} (hb : RawAst b) (h : isMulDivRoot b = false)
    (sfuel f : Nat) : isProdNode (canonicalizeF sfuel (f + 1) b) = false := by
  cases hb with
  | number v => rfl
  | binary op l r hop hl hr =>
    simp only [List.mem_cons, List.mem_singleton, List.not_mem_nil, or_false] at hop
    simp only [isMulDivRoot, Bool.or_eq_false_iff, beq_eq_false_iff_ne, ne_eq] at h
    rcases hop with h' | h' | h' | h' <;> subst h'
    · rfl
    · rfl
    · exact absurd rfl h.1
    · exact absurd rfl h.2

theorem orientPass_notProd {c : JNode} (h : isProdNode c = false) :
    isProdNode (orientPass c) = false := by
  match c with
  | .number v => exact h
  | .binary op l r => exact h
  | .product fs => exact h
  | .sum [] => exact h
  | .sum [t1] => exact h
  | .sum (t1 :: t2 :: t3 :: ts) => exact h
  | .sum [t1, t2] =>
    simp only [orientPass]
    split_ifs <;> rfl

theorem orientPass_noNest {c : JNode} (h : NoNest c) : NoNest (orientPass c) := by
  match c, h with
  | .number v, h => exact h
  | .product fs, h => exact h
  | .sum [], h => exact h
  | .sum [t1], h => exact h
  | .sum (t1 :: t2 :: t3 :: ts), h => exact h
  | .sum [t1, t2], h =>
    simp only [orientPass]
    split_ifs with hs
    · cases h with
      | sum ts h1 h2 =>
        refine NoNest.sum _ ?_ ?_ <;> intro p hp <;>
          simp only [List.mem_cons, List.not_mem_nil, or_false] at hp
        · rcases hp with h' | h' <;> subst h'
          · exact h1 t1 (by simp)
          · exact h1 t2 (by simp)
        · rcases hp with h' | h' <;> subst h'
          · exact h2 t1 (by simp)
          · exact h2 t2 (by simp)
    · exact h

theorem finalizeFactorF_notProd {c : JNode} (h : isProdNode c = false) (sfuel : Nat) :
    isProdNode (finalizeFactorF sfuel c) = false := by
  match c with
  | .number v => exact h
  | .binary op l r => exact h
  | .product fs => exact h
  | .sum [] => exact h
  | .sum [t1] => exact h
  | .sum (t1 :: t2 :: t3 :: ts) => exact h
  | .sum [t1, t2] =>
    simp only [finalizeFactorF]
    split_ifs <;> rfl

theorem finalizeFactorF_noNest {c : JNode} (h : NoNest c) (sfuel : Nat) :
    NoNest (finalizeFactorF sfuel c) := by
  match c, h with
  | .number v, h => exact h
  | .product fs, h => exact h
  | .sum [], h => exact h
  | .sum [t1], h => exact h
  | .sum (t1 :: t2 :: t3 :: ts), h => exact h
  | .sum [t1, t2], h =>
    simp only [finalizeFactorF]
    split_ifs with hs
    · cases h with
      | sum ts h1 h2 =>
        refine NoNest.sum _ ?_ ?_ <;> intro p hp <;>
          simp only [List.mem_cons, List.not_mem_nil, or_false] at hp
        · rcases hp with h' | h' <;> subst h'
          · exact h1 t2 (by simp)
          · exact h1 t1 (by simp)
        · rcases hp with h' | h' <;> subst h'
          · exact h2 t2 (by simp)
          · exact h2 t1 (by simp)
    · exact h

/-- Unfolding of `canonicalizeF` at a `+`/`-` binary node. -/
theorem canonicalizeF_addOp (sfuel fuel : Nat) (op : Char) (hop : op = '+' ∨ op = '-')
    (l r : JNode) :
    canonicalizeF sfuel (fuel + 1) (.binary op l r) =
      .sum (sortCmp (fun a b => if a.1 ≠ b.1 then b.1 - a.1 else compareTermsF sfuel a b)
        ((flattenSum (.binary op l r) 1).map fun t => (t.1, canonicalizeF sfuel fuel t.2))) := by
  rcases hop with h | h <;> subst h <;> rfl

/-- Unfolding of `canonicalizeF` at a `*`/`/` binary node. -/
theorem canonicalizeF_mulOp (sfuel fuel : Nat) (op : Char) (hop : op = '*' ∨ op = '/')
    (l r : JNode) :
    canonicalizeF sfuel (fuel + 1) (.binary op l r) =
      .product (sortCmp (fun a b => lexCmp (serializeF sfuel a.2) (serializeF sfuel b.2))
        (((flattenProduct (.binary op l r) false).map
            fun f => (f.1, orientPass (canonicalizeF sfuel fuel f.2))).map
          fun f => (f.1, finalizeFactorF sfuel f.2))) := by
  rcases hop with h | h <;> subst h <;> rfl

/-- C9: every canonical node produced by `Normalizer.canonicalize` from
a raw (parser-shaped) AST satisfies the canonical-tree invariant: a sum
node never has a sum node as the node of one of its direct terms, and a
product node never has a product node as the node of one of its direct
factors — same-kind nesting is fully absorbed by flattening before the
node is finalized.  The statement covers every fuel at least `astSize a`
and hence the instantiation `fuel = astSize ast` used by `normalize`. -/
theorem canonical_no_nesting :
    ∀ fuel (a : JNode), RawAst a → astSize a ≤ fuel → ∀ sfuel,
      NoNest (canonicalizeF sfuel fuel a) := by
  intro fuel
  induction fuel with
  | zero =>
    intro a ha hsize sfuel
    exact absurd hsize (by have := astSize_pos a; omega)
  | succ fuel ih =>
    intro a ha hsize sfuel
    cases ha with
    | number v => exact NoNest.number v
    | binary op l r hop hl hr =>
      simp only [List.mem_cons, List.mem_singleton, List.not_mem_nil, or_false] at hop
      have hsizel : astSize l ≤ fuel := by
        simp only [astSize] at hsize; have := astSize_pos r; omega
      have hsizer : astSize r ≤ fuel := by
        simp only [astSize] at hsize; have := astSize_pos l; omega
      have sumCase : ∀ hop' : op = '+' ∨ op = '-',
          (flattenSum (JNode.binary op l r) 1 = flattenSum l 1 ++ flattenSum r 1 ∨
           flattenSum (JNode.binary op l r) 1 = flattenSum l 1 ++ flattenSum r (-1)) →
          NoNest (canonicalizeF sfuel (fuel + 1) (.binary op l r)) := by
        intro hop' hflat
        rw [canonicalizeF_addOp sfuel fuel op hop' l r]
        have key : ∀ p ∈ ((flattenSum (JNode.binary op l r) 1).map
            fun t => (t.1, canonicalizeF sfuel fuel t.2)),
            isSumNode p.2 = false ∧ NoNest p.2 := by
          intro p hp
          obtain ⟨t, ht, rfl⟩ := List.mem_map.mp hp
          have hbound : RawAst t.2 ∧ astSize t.2 ≤ fuel ∧ isAddSubRoot t.2 = false := by
            rcases hflat with he | he <;> rw [he, List.mem_append] at ht <;>
              rcases ht with h' | h'
            · obtain ⟨a1, a2, a3⟩ := flattenSum_mem hl 1 t h'
              exact ⟨a1, le_trans a2 hsizel, a3⟩
            · obtain ⟨a1, a2, a3⟩ := flattenSum_mem hr 1 t h'
              exact ⟨a1, le_trans a2 hsizer, a3⟩
            · obtain ⟨a1, a2, a3⟩ := flattenSum_mem hl 1 t h'
              exact ⟨a1, le_trans a2 hsizel, a3⟩
            · obtain ⟨a1, a2, a3⟩ := flattenSum_mem hr (-1) t h'
              exact ⟨a1, le_trans a2 hsizer, a3⟩
          obtain ⟨hraw, hsz, hnot⟩ := hbound
          obtain ⟨f, rfl⟩ : ∃ f, fuel = f + 1 := by
            have := astSize_pos t.2
            cases fuel with
            | zero => omega
            | succ f => exact ⟨f, rfl⟩
          exact ⟨canon_not_sum hraw hnot sfuel f, ih t.2 hraw hsz sfuel⟩
        refine NoNest.sum _ ?_ ?_ <;> intro p hp <;> rw [mem_sortCmp] at hp
        · exact (key p hp).1
        · exact (key p hp).2
      have prodCase : ∀ hop' : op = '*' ∨ op = '/',
          (flattenProduct (JNode.binary op l r) false =
             flattenProduct l false ++ flattenProduct r false ∨
           flattenProduct (JNode.binary op l r) false =
             flattenProduct l false ++ flattenProduct r true) →
          NoNest (canonicalizeF sfuel (fuel + 1) (.binary op l r)) := by
        intro hop' hflat
        rw [canonicalizeF_mulOp sfuel fuel op hop' l r]
        have key : ∀ p ∈ (((flattenProduct (JNode.binary op l r) false).map
            fun f => (f.1, orientPass (canonicalizeF sfuel fuel f.2))).map
              fun f => (f.1, finalizeFactorF sfuel f.2)),
            isProdNode p.2 = false ∧ NoNest p.2 := by
          intro p hp
          obtain ⟨q, hq, rfl⟩ := List.mem_map.mp hp
          obtain ⟨t, ht, rfl⟩ := List.mem_map.mp hq
          have hbound : RawAst t.2 ∧ astSize t.2 ≤ fuel ∧ isMulDivRoot t.2 = false := by
            rcases hflat with he | he <;> rw [he, List.mem_append] at ht <;>
              rcases ht with h' | h'
            · obtain ⟨a1, a2, a3⟩ := flattenProduct_mem hl false t h'
              exact ⟨a1, le_trans a2 hsizel, a3⟩
            · obtain ⟨a1, a2, a3⟩ := flattenProduct_mem hr false t h'
              exact ⟨a1, le_trans a2 hsizer, a3⟩
            · obtain ⟨a1, a2, a3⟩ := flattenProduct_mem hl false t h'
              exact ⟨a1, le_trans a2 hsizel, a3⟩
            · obtain ⟨a1, a2, a3⟩ := flattenProduct_mem hr true t h'
              exact ⟨a1, le_trans a2 hsizer, a3⟩
          obtain ⟨hraw, hsz, hnot⟩ := hbound
          obtain ⟨f, rfl⟩ : ∃ f, fuel = f + 1 := by
            have := astSize_pos t.2
            cases fuel with
            | zero => omega
            | succ f => exact ⟨f, rfl⟩
          refine ⟨?_, ?_⟩
          · exact finalizeFactorF_notProd
              (orientPass_notProd (canon_not_prod hraw hnot sfuel f)) sfuel
          · exact finalizeFactorF_noNest (orientPass_noNest (ih t.2 hraw hsz sfuel)) sfuel
        refine NoNest.product _ ?_ ?_ <;> intro p hp <;> rw [mem_sortCmp] at hp
        · exact (key p hp).1
        · exact (key p hp).2
      rcases hop with h | h | h | h <;> subst h
      · exact sumCase (Or.inl rfl) (Or.inl rfl)
      · exact sumCase (Or.inr rfl) (Or.inr rfl)
      · exact prodCase (Or.inl rfl) (Or.inl rfl)
      · exact prodCase (Or.inr rfl) (Or.inr rfl)

/-- Witness for C9 at the raw AST of `1 + 2 * 3`. -/
theorem canonical_no_nesting_witness :
    RawAst (JNode.binary '+' (.number (some 1))
      (.binary '*' (.number (some 2)) (.number (some 3)))) ∧
    astSize (JNode.binary '+' (.number (some 1))
      (.binary '*' (.number (some 2)) (.number (some 3)))) ≤ 9 ∧
    NoNest (canonicalizeF 9 9 (JNode.binary '+' (.number (some 1))
      (.binary '*' (.number (some 2)) (.number (some 3))))) := by
  have hraw : RawAst (JNode.binary '+' (.number (some 1))
      (.binary '*' (.number (some 2)) (.number (some 3)))) :=
    RawAst.binary '+' _ _ (by simp) (RawAst.number _)
      (RawAst.binary '*' _ _ (by simp) (RawAst.number _) (RawAst.number _))
  exact ⟨hraw, by simp [astSize], canonical_no_nesting 9 _ hraw (by simp [astSize]) 9⟩

theorem FactorToks.length_pos {ts : List Tok} {v : ℚ} (d : FactorToks ts v) :
    1 ≤ ts.length := by
  cases d <;> simp

/-- A `PMChain` token list is empty or starts with `+`/`-`, so the term
loop never eats into it. -/
theorem PMChain.noMD_append {v u : ℚ} {ts rest : List Tok} (d : PMChain v ts u)
    (h : noMulDivHead rest) : noMulDivHead (ts ++ rest) := by
  cases d with
  | nil => exact h
  | add d' c => exact trivial
  | sub d' c => exact trivial

/-! ### Bridge: derived token lists parse back to their value -/

mutual

theorem bridgeF {ts : List Tok} {v : ℚ} (d : FactorToks ts v) :
    ∀ (fuel : Nat) (rest : List Tok), 2 * ts.length ≤ fuel + 1 →
      ∃ a, parseF fuel (ts ++ rest) = (a, rest) ∧ evalAst a = some v :=
  match ts, v, d with
  | _, _, .num n => by
    intro fuel rest hfuel
    obtain ⟨f, rfl⟩ : ∃ f, fuel = f + 1 := by
      cases fuel with
      | zero => exact absurd hfuel (by simp)
      | succ f => exact ⟨f, rfl⟩
    exact ⟨.number (some n), by simp [parseF], by simp [evalAst]⟩
  | _, _, @FactorToks.paren ts' _ d' => by
    intro fuel rest hfuel
    simp only [List.length_cons, List.length_append, List.length_singleton] at hfuel
    obtain ⟨f, rfl⟩ : ∃ f, fuel = f + 1 := by
      cases fuel with
      | zero => exact absurd hfuel (by omega)
      | succ f => exact ⟨f, rfl⟩
    rw [List.cons_append, List.append_assoc, List.singleton_append]
    obtain ⟨a, ha, hv⟩ := bridgeE d' f (Tok.rparen :: rest) trivial trivial (by omega)
    refine ⟨a, ?_, hv⟩
    simp [parseF, ha]

theorem bridgeMD {v : ℚ} {ts : List Tok} {u : ℚ} (d : MDChain v ts u) :
    ∀ (fuel : Nat) (left : JNode) (rest : List Tok), evalAst left = some v →
      noMulDivHead rest → 2 * ts.length ≤ fuel →
      ∃ a, parseTLoop fuel left (ts ++ rest) = (a, rest) ∧ evalAst a = some u :=
  match ts, u, d with
  | _, _, .nil _ => by
    intro fuel left rest hleft hrest hfuel
    refine ⟨left, ?_, hleft⟩
    rw [List.nil_append]
    cases fuel with
    | zero => rfl
    | succ f =>
      cases rest with
      | nil => rfl
      | cons t r => cases t <;> first | exact hrest.elim | rfl
  | _, _, @MDChain.mul fs2 ts2 _ w _ f c => by
    intro fuel left rest hleft hrest hfuel
    simp only [List.length_cons, List.length_append] at hfuel
    obtain ⟨fl, rfl⟩ : ∃ fl, fuel = fl + 1 := by
      cases fuel with
      | zero => exact absurd hfuel (by omega)
      | succ fl => exact ⟨fl, rfl⟩
    rw [List.cons_append, List.append_assoc]
    obtain ⟨af, haf, hvf⟩ := bridgeF f fl (ts2 ++ rest) (by omega)
    obtain ⟨a, ha, hv⟩ := bridgeMD c fl (.binary '*' left af) rest
      (by simp [evalAst, hleft, hvf]) hrest (by omega)
    refine ⟨a, ?_, hv⟩
    simp [parseTLoop, haf, ha]
  | _, _, @MDChain.div fs2 ts2 _ w _ f hw c => by
    intro fuel left rest hleft hrest hfuel
    simp only [List.length_cons, List.length_append] at hfuel
    obtain ⟨fl, rfl⟩ : ∃ fl, fuel = fl + 1 := by
      cases fuel with
      | zero => exact absurd hfuel (by omega)
      | succ fl => exact ⟨fl, rfl⟩
    rw [List.cons_append, List.append_assoc]
    obtain ⟨af, haf, hvf⟩ := bridgeF f fl (ts2 ++ rest) (by omega)
    obtain ⟨a, ha, hv⟩ := bridgeMD c fl (.binary '/' left af) rest
      (by simp [evalAst, hleft, hvf, hw]) hrest (by omega)
    refine ⟨a, ?_, hv⟩
    simp [parseTLoop, haf, ha]

theorem bridgeT {ts : List Tok} {v : ℚ} (d : TermToksD ts v) :
    ∀ (fuel : Nat) (rest : List Tok), noMulDivHead rest → 2 * ts.length ≤ fuel →
      ∃ a, parseT fuel (ts ++ rest) = (a, rest) ∧ evalAst a = some v :=
  match ts, v, d with
  | _, _, @TermToksD.mk fs2 ts2 v0 _ f0 md => by
    intro fuel rest hrest hfuel
    simp only [List.length_append] at hfuel
    have hflen := f0.length_pos
    obtain ⟨fl, rfl⟩ : ∃ fl, fuel = fl + 1 := by
      cases fuel with
      | zero => exact absurd hfuel (by omega)
      | succ fl => exact ⟨fl, rfl⟩
    rw [List.append_assoc]
    obtain ⟨a0, ha0, hv0⟩ := bridgeF f0 fl (ts2 ++ rest) (by omega)
    obtain ⟨a, ha, hv⟩ := bridgeMD md fl a0 rest hv0 hrest (by omega)
    refine ⟨a, ?_, hv⟩
    simp [parseT, ha0, ha]

theorem bridgePM {v : ℚ} {ts : List Tok} {u : ℚ} (d : PMChain v ts u) :
    ∀ (fuel : Nat) (left : JNode) (rest : List Tok), evalAst left = some v →
      noMulDivHead rest → noAddSubHead rest → 2 * ts.length ≤ fuel →
      ∃ a, parseELoop fuel left (ts ++ rest) = (a, rest) ∧ evalAst a = some u :=
  match ts, u, d with
  | _, _, .nil _ => by
    intro fuel left rest hleft hmd hpm hfuel
    refine ⟨left, ?_, hleft⟩
    rw [List.nil_append]
    cases fuel with
    | zero => rfl
    | succ f =>
      cases rest with
      | nil => rfl
      | cons t r => cases t <;> first | exact hpm.elim | rfl
  | _, _, @PMChain.add ts1 ts2 _ w _ t c => by
    intro fuel left rest hleft hmd hpm hfuel
    simp only [List.length_cons, List.length_append] at hfuel
    obtain ⟨fl, rfl⟩ : ∃ fl, fuel = fl + 1 := by
      cases fuel with
      | zero => exact absurd hfuel (by omega)
      | succ fl => exact ⟨fl, rfl⟩
    rw [List.cons_append, List.append_assoc]
    obtain ⟨ab, hab, hvt⟩ := bridgeT t fl (ts2 ++ rest) (c.noMD_append hmd) (by omega)
    obtain ⟨a, ha, hv⟩ := bridgePM c fl (.binary '+' left ab) rest
      (by simp [evalAst, hleft, hvt]) hmd hpm (by omega)
    refine ⟨a, ?_, hv⟩
    simp [parseELoop, hab, ha]
  | _, _, @PMChain.sub ts1 ts2 _ w _ t c => by
    intro fuel left rest hleft hmd hpm hfuel
    simp only [List.length_cons, List.length_append] at hfuel
    obtain ⟨fl, rfl⟩ : ∃ fl, fuel = fl + 1 := by
      cases fuel with
      | zero => exact absurd hfuel (by omega)
      | succ fl => exact ⟨fl, rfl⟩
    rw [List.cons_append, List.append_assoc]
    obtain ⟨ab, hab, hvt⟩ := bridgeT t fl (ts2 ++ rest) (c.noMD_append hmd) (by omega)
    obtain ⟨a, ha, hv⟩ := bridgePM c fl (.binary '-' left ab) rest
      (by simp [evalAst, hleft, hvt]) hmd hpm (by omega)
    refine ⟨a, ?_, hv⟩
    simp [parseELoop, hab, ha]

theorem bridgeE {ts : List Tok} {v : ℚ} (d : ExprToksD ts v) :
    ∀ (fuel : Nat) (rest : List Tok), noMulDivHead rest → noAddSubHead rest →
      2 * ts.length + 1 ≤ fuel →
      ∃ a, parseE fuel (ts ++ rest) = (a, rest) ∧ evalAst a = some v :=
  match ts, v, d with
  | _, _, @ExprToksD.mk ts1 ts2 v0 _ t0 pm => by
    intro fuel rest hmd hpm hfuel
    simp only [List.length_append] at hfuel
    obtain ⟨fl, rfl⟩ : ∃ fl, fuel = fl + 1 := by
      cases fuel with
      | zero => exact absurd hfuel (by omega)
      | succ fl => exact ⟨fl, rfl⟩
    rw [List.append_assoc]
    obtain ⟨a0, ha0, hv0⟩ := bridgeT t0 fl (ts2 ++ rest) (pm.noMD_append hmd) (by omega)
    obtain ⟨a, ha, hv⟩ := bridgePM pm fl a0 rest hv0 hmd hpm (by omega)
    refine ⟨a, ?_, hv⟩
    simp [parseE, ha0, ha]

end

/-! ### Tokenizing the solver's rendered strings -/

theorem tokenizeAux_append (a b : List Char) (p : Option Nat)
    (hb : ∀ c ∈ b.head?, c.isDigit = false) :
    tokenizeAux (a ++ b) p = tokenizeAux a p ++ tokenizeAux b none := by
  induction a generalizing p with
  | nil =>
    cases b with
    | nil => simp [tokenizeAux, flushPend]
    | cons c cs =>
      have hc : c.isDigit = false := hb c (by simp)
      simp [tokenizeAux, hc, flushPend]
  | cons c cs ih =>
    by_cases hc : c.isDigit
    · simp [tokenizeAux, hc, ih]
    · simp [tokenizeAux, hc, ih, List.append_assoc]

/-- Tokenizing splits at any boundary whose right side does not start
with a digit. -/
theorem tokenize_append (a b : List Char) (hb : ∀ c ∈ b.head?, c.isDigit = false) :
    tokenize (a ++ b) = tokenize a ++ tokenize b :=
  tokenizeAux_append a b none hb

theorem head_space_not_digit (rest : List Char) :
    ∀ c ∈ (' ' :: rest).head?, c.isDigit = false := by
  intro c hc
  simp only [List.head?_cons, Option.mem_def, Option.some.injEq] at hc
  subst hc
  decide

theorem head_rparen_not_digit (rest : List Char) :
    ∀ c ∈ (')' :: rest).head?, c.isDigit = false := by
  intro c hc
  simp only [List.head?_cons, Option.mem_def, Option.some.injEq] at hc
  subst hc
  decide

theorem tokenize_sep_plus (B : List Char) :
    tokenize (' ' :: '+' :: ' ' :: B) = Tok.plus :: tokenize B := rfl

theorem tokenize_sep_minus (B : List Char) :
    tokenize (' ' :: '-' :: ' ' :: B) = Tok.minus :: tokenize B := rfl

theorem tokenize_sep_star (B : List Char) :
    tokenize (' ' :: '*' :: ' ' :: B) = Tok.star :: tokenize B := rfl

theorem tokenize_sep_slash (B : List Char) :
    tokenize (' ' :: '/' :: ' ' :: B) = Tok.slash :: tokenize B := rfl

/-- Tokenizing a parenthesized fragment. -/
theorem tokenize_paren (B : List Char) :
    tokenize ('(' :: B ++ [')']) = Tok.lparen :: (tokenize B ++ [Tok.rparen]) := by
  show tokenizeAux ('(' :: (B ++ [')'])) none = _
  rw [show tokenizeAux ('(' :: (B ++ [')'])) none =
      Tok.lparen :: tokenizeAux (B ++ [')']) none from rfl]
  rw [show tokenizeAux (B ++ [')']) none = tokenize (B ++ [')']) from rfl,
    tokenize_append B [')'] (head_rparen_not_digit [])]
  rfl

/-- Tokenizing the decimal text of a small integer (the puzzle range). -/
theorem tokenize_intToChars {n : Int} (h1 : 1 ≤ n) (h13 : n ≤ 13) :
    tokenize (intToChars n) = [Tok.num n.toNat] := by
  interval_cases n <;> decide

theorem cast_toNat_eq {n : Int} (h0 : 0 ≤ n) : ((n.toNat : Nat) : ℚ) = (n : ℚ) := by
  rw [show ((n.toNat : Nat) : ℚ) = ((n.toNat : Int) : ℚ) by push_cast; ring,
    Int.toNat_of_nonneg h0]

/-- The division guard makes the divisor nonzero over `ℚ` and the
truncated integer quotient equal to the rational quotient. -/
theorem divGuard_spec {a b : Int} (h : divGuard a b = true) :
    (b : ℚ) ≠ 0 ∧ ((a.tdiv b : Int) : ℚ) = (a : ℚ) / (b : ℚ) := by
  simp only [divGuard, Bool.and_eq_true, bne_iff_ne, ne_eq, beq_iff_eq] at h
  obtain ⟨hb, hmod⟩ := h
  have hdvd : b ∣ a := by
    have hh := Int.tdiv_add_tmod a b
    rw [hmod, add_zero] at hh
    exact ⟨a.tdiv b, hh.symm⟩
  obtain ⟨k, rfl⟩ := hdvd
  refine ⟨by exact_mod_cast hb, ?_⟩
  rw [Int.mul_tdiv_cancel_left k hb]
  have hbq : (b : ℚ) ≠ 0 := by exact_mod_cast hb
  push_cast
  field_simp

theorem ItemOK.toExpr {it : SItem} (h : ItemOK it) :
    Nonempty (ExprToksD (tokenize it.expr) (it.value : ℚ)) := by
  rcases h with ⟨_, ⟨d⟩⟩ | ⟨_, ⟨d⟩⟩ | ⟨_, ⟨d⟩⟩
  · exact ⟨d.toTermD.toExprD⟩
  · exact ⟨d.toExprD⟩
  · exact ⟨d⟩

theorem ItemOK.toTerm3 {it : SItem} (h : ItemOK it) (h3 : it.prec = 3 ∨ it.prec = 2) :
    Nonempty (TermToksD (tokenize it.expr) (it.value : ℚ)) := by
  rcases h with ⟨_, ⟨d⟩⟩ | ⟨_, ⟨d⟩⟩ | ⟨hp, _⟩
  · exact ⟨d.toTermD⟩
  · exact ⟨d⟩
  · rcases h3 with h3 | h3 <;> omega

/-- The step invariant: the item `_tryOp` builds from two invariant
items, for a permitted operator, again satisfies the invariant. -/
theorem mkItem_ok {a b : SItem} (ha : ItemOK a) (hb : ItemOK b) (op : Char)
    (hop : op = '+' ∨ op = '-' ∨ op = '*' ∨ (op = '/' ∧ divGuard a.value b.value = true)) :
    ItemOK (mkItem a b op) := by
  have hprecA : a.prec = 3 ∨ a.prec = 2 ∨ a.prec = 1 := by
    rcases ha with ⟨h, _⟩ | ⟨h, _⟩ | ⟨h, _⟩ <;> simp [h]
  have hprecB : b.prec = 3 ∨ b.prec = 2 ∨ b.prec = 1 := by
    rcases hb with ⟨h, _⟩ | ⟨h, _⟩ | ⟨h, _⟩ <;> simp [h]
  rcases hop with rfl | rfl | rfl | ⟨rfl, hguard⟩
  · -- op = '+'
    have hA : format (PRECOF '+') '+' a false = a.expr := by
      apply if_neg
      rcases hprecA with h | h | h <;> simp [PRECOF, h]
    have hB : format (PRECOF '+') '+' b true = b.expr := by
      apply if_neg
      rcases hprecB with h | h | h <;> simp [PRECOF, h]
    obtain ⟨da⟩ := ha.toExpr
    refine Or.inr (Or.inr ⟨rfl, ?_⟩)
    have hexpr : (mkItem a b '+').expr = a.expr ++ ' ' :: '+' :: ' ' :: b.expr := by
      show format (PRECOF '+') '+' a false ++ _ = _
      rw [hA, hB]
    have hval : (mkItem a b '+').value = a.value + b.value := rfl
    rw [hexpr, hval, tokenize_append _ _ (head_space_not_digit _), tokenize_sep_plus,
      Int.cast_add]
    rcases hb with ⟨h3, ⟨db⟩⟩ | ⟨h2, ⟨db⟩⟩ | ⟨h1, ⟨db⟩⟩
    · exact ⟨da.addTerm db.toTermD⟩
    · exact ⟨da.addTerm db⟩
    · exact ⟨da.addExpr db⟩
  · -- op = '-'
    have hA : format (PRECOF '-') '-' a false = a.expr := by
      apply if_neg
      rcases hprecA with h | h | h <;> simp [PRECOF, h]
    obtain ⟨da⟩ := ha.toExpr
    refine Or.inr (Or.inr ⟨rfl, ?_⟩)
    have hval : (mkItem a b '-').value = a.value - b.value := rfl
    rcases hb with ⟨hp, ⟨db⟩⟩ | ⟨hp, ⟨db⟩⟩ | ⟨hp, ⟨db⟩⟩
    · have hB : format (PRECOF '-') '-' b true = b.expr := by
        apply if_neg
        simp [PRECOF, hp]
      have hexpr : (mkItem a b '-').expr = a.expr ++ ' ' :: '-' :: ' ' :: b.expr := by
        show format (PRECOF '-') '-' a false ++ _ = _
        rw [hA, hB]
      rw [hexpr, hval, tokenize_append _ _ (head_space_not_digit _), tokenize_sep_minus,
        Int.cast_sub]
      exact ⟨da.subTerm db.toTermD⟩
    · have hB : format (PRECOF '-') '-' b true = b.expr := by
        apply if_neg
        simp [PRECOF, hp]
      have hexpr : (mkItem a b '-').expr = a.expr ++ ' ' :: '-' :: ' ' :: b.expr := by
        show format (PRECOF '-') '-' a false ++ _ = _
        rw [hA, hB]
      rw [hexpr, hval, tokenize_append _ _ (head_space_not_digit _), tokenize_sep_minus,
        Int.cast_sub]
      exact ⟨da.subTerm db⟩
    · have hB : format (PRECOF '-') '-' b true = '(' :: b.expr ++ [')'] := by
        apply if_pos
        right
        exact ⟨by simp [PRECOF, hp], rfl, Or.inl rfl⟩
      have hexpr : (mkItem a b '-').expr =
          a.expr ++ ' ' :: '-' :: ' ' :: ('(' :: b.expr ++ [')']) := by
        show format (PRECOF '-') '-' a false ++ _ = _
        rw [hA, hB]
      rw [hexpr, hval, tokenize_append _ _ (head_space_not_digit _), tokenize_sep_minus,
        tokenize_paren, Int.cast_sub]
      exact ⟨da.subTerm (FactorToks.paren db).toTermD⟩
  · -- op = '*'
    refine Or.inr (Or.inl ⟨rfl, ?_⟩)
    have hval : (mkItem a b '*').value = a.value * b.value := rfl
    obtain ⟨ta, hta, ⟨da⟩⟩ :
        ∃ ta, format (PRECOF '*') '*' a false = ta ∧
          Nonempty (TermToksD (tokenize ta) (a.value : ℚ)) := by
      rcases ha with ⟨hp, ⟨d⟩⟩ | ⟨hp, ⟨d⟩⟩ | ⟨hp, ⟨d⟩⟩
      · exact ⟨a.expr, by apply if_neg; simp [PRECOF, hp], ⟨d.toTermD⟩⟩
      · exact ⟨a.expr, by apply if_neg; simp [PRECOF, hp], ⟨d⟩⟩
      · refine ⟨'(' :: a.expr ++ [')'], by apply if_pos; left; simp [PRECOF, hp], ?_⟩
        rw [tokenize_paren]
        exact ⟨(FactorToks.paren d).toTermD⟩
    obtain ⟨tb, htb, ⟨db⟩⟩ :
        ∃ tb, format (PRECOF '*') '*' b true = tb ∧
          Nonempty (TermToksD (tokenize tb) (b.value : ℚ)) := by
      rcases hb with ⟨hp, ⟨d⟩⟩ | ⟨hp, ⟨d⟩⟩ | ⟨hp, ⟨d⟩⟩
      · exact ⟨b.expr, by apply if_neg; simp [PRECOF, hp], ⟨d.toTermD⟩⟩
      · exact ⟨b.expr, by apply if_neg; simp [PRECOF, hp], ⟨d⟩⟩
      · refine ⟨'(' :: b.expr ++ [')'], by apply if_pos; left; simp [PRECOF, hp], ?_⟩
        rw [tokenize_paren]
        exact ⟨(FactorToks.paren d).toTermD⟩
    have hexpr : (mkItem a b '*').expr = ta ++ ' ' :: '*' :: ' ' :: tb := by
      show format (PRECOF '*') '*' a false ++ _ = _
      rw [hta, htb]
    rw [hexpr, hval, tokenize_append _ _ (head_space_not_digit _), tokenize_sep_star,
      Int.cast_mul]
    exact ⟨da.mulTerm db⟩
  · -- op = '/'
    refine Or.inr (Or.inl ⟨rfl, ?_⟩)
    obtain ⟨hbq, hcast⟩ := divGuard_spec hguard
    have hval : (mkItem a b '/').value = a.value.tdiv b.value := rfl
    obtain ⟨ta, hta, ⟨da⟩⟩ :
        ∃ ta, format (PRECOF '/') '/' a false = ta ∧
          Nonempty (TermToksD (tokenize ta) (a.value : ℚ)) := by
      rcases ha with ⟨hp, ⟨d⟩⟩ | ⟨hp, ⟨d⟩⟩ | ⟨hp, ⟨d⟩⟩
      · exact ⟨a.expr, by apply if_neg; simp [PRECOF, hp], ⟨d.toTermD⟩⟩
      · exact ⟨a.expr, by apply if_neg; simp [PRECOF, hp], ⟨d⟩⟩
      · refine ⟨'(' :: a.expr ++ [')'], by apply if_pos; left; simp [PRECOF, hp], ?_⟩
        rw [tokenize_paren]
        exact ⟨(FactorToks.paren d).toTermD⟩
    obtain ⟨tb, htb, ⟨db⟩⟩ :
        ∃ tb, format (PRECOF '/') '/' b true = tb ∧
          Nonempty (FactorToks (tokenize tb) (b.value : ℚ)) := by
      rcases hb with ⟨hp, ⟨d⟩⟩ | ⟨hp, ⟨d⟩⟩ | ⟨hp, ⟨d⟩⟩
      · exact ⟨b.expr, by apply if_neg; simp [PRECOF, hp], ⟨d⟩⟩
      · refine ⟨'(' :: b.expr ++ [')'],
          by apply if_pos; right; exact ⟨by simp [PRECOF, hp], rfl, Or.inr rfl⟩, ?_⟩
        rw [tokenize_paren]
        exact ⟨FactorToks.paren d.toExprD⟩
      · refine ⟨'(' :: b.expr ++ [')'], by apply if_pos; left; simp [PRECOF, hp], ?_⟩
        rw [tokenize_paren]
        exact ⟨FactorToks.paren d⟩
    have hexpr : (mkItem a b '/').expr = ta ++ ' ' :: '/' :: ' ' :: tb := by
      show format (PRECOF '/') '/' a false ++ _ = _
      rw [hta, htb]
    rw [hexpr, hval, tokenize_append _ _ (head_space_not_digit _), tokenize_sep_slash, hcast]
    exact ⟨da.divFactor db hbq⟩

/-! ### Soundness of the search -/

theorem getD_mem_of_lt {α : Type} :
    ∀ (l : List α) (i : Nat), i < l.length → ∀ d : α, l.getD i d ∈ l
  | x :: xs, 0, _, _ => List.mem_cons_self x xs
  | x :: xs, i + 1, h, d =>
    List.mem_cons_of_mem x (getD_mem_of_lt xs i (by simpa using h) d)

theorem filterIdx_subset {i j : Nat} :
    ∀ {l : List SItem} {k : Nat} {x : SItem}, x ∈ filterIdx i j k l → x ∈ l := by
  intro l
  induction l with
  | nil => intro k x hx; simp [filterIdx] at hx
  | cons y ys ih =>
    intro k x hx
    simp only [filterIdx] at hx
    split_ifs at hx
    · rcases List.mem_cons.mp hx with h | h
      · simp [h]
      · exact List.mem_cons_of_mem y (ih h)
    · exact List.mem_cons_of_mem y (ih hx)

/-- Every successor item list of an invariant item list is again made
of invariant items. -/
theorem nextLists_ok {items : List SItem} (h : ∀ it ∈ items, ItemOK it) :
    ∀ next ∈ nextLists items, ∀ it ∈ next, ItemOK it := by
  intro next hnext
  simp only [nextLists, List.mem_flatMap, List.mem_range] at hnext
  obtain ⟨i, hi, j, hj, hnext⟩ := hnext
  by_cases hij : i = j
  · rw [if_pos hij] at hnext
    simp at hnext
  · rw [if_neg hij] at hnext
    have main : ∀ op : Char,
        (op = '+' ∨ op = '-' ∨ op = '*' ∨
          (op = '/' ∧ divGuard (items.getD i default).value (items.getD j default).value = true)) →
        ∀ it ∈ filterIdx i j 0 items ++
            [mkItem (items.getD i default) (items.getD j default) op], ItemOK it := by
      intro op hop it hit
      rw [List.mem_append] at hit
      rcases hit with hit | hit
      · exact h it (filterIdx_subset hit)
      · simp only [List.mem_singleton] at hit
        subst hit
        exact mkItem_ok (h _ (getD_mem_of_lt _ _ hi default))
          (h _ (getD_mem_of_lt _ _ hj default)) op hop
    by_cases hg : divGuard (items.getD i default).value (items.getD j default).value = true
    · rw [if_pos hg] at hnext
      simp only [List.mem_map, List.mem_cons, List.mem_singleton, List.not_mem_nil,
        or_false] at hnext
      obtain ⟨op, hopmem, rfl⟩ := hnext
      rcases hopmem with rfl | rfl | rfl | rfl
      · exact main '+' (Or.inl rfl)
      · exact main '-' (Or.inr (Or.inl rfl))
      · exact main '*' (Or.inr (Or.inr (Or.inl rfl)))
      · exact main '/' (Or.inr (Or.inr (Or.inr ⟨rfl, hg⟩)))
    · rw [if_neg hg] at hnext
      simp only [List.mem_map, List.mem_cons, List.mem_singleton, List.not_mem_nil,
        or_false] at hnext
      obtain ⟨op, hopmem, rfl⟩ := hnext
      rcases hopmem with rfl | rfl | rfl
      · exact main '+' (Or.inl rfl)
      · exact main '-' (Or.inr (Or.inl rfl))
      · exact main '*' (Or.inr (Or.inr (Or.inl rfl)))

/-- Every string the search records while all items carry the invariant
is derivable as an expression with value 24. -/
theorem search_sound :
    ∀ (fuel : Nat) (items : List SItem), (∀ it ∈ items, ItemOK it) →
      ∀ s ∈ search fuel items, Nonempty (ExprToksD (tokenize s) (24 : ℚ)) := by
  intro fuel
  induction fuel with
  | zero =>
    intro items h s hs
    simp [search] at hs
  | succ fuel ih =>
    intro items h s hs
    cases items with
    | nil =>
      simp [search, nextLists] at hs
    | cons it rest =>
      cases rest with
      | nil =>
        simp only [search] at hs
        by_cases hacc : accepts it.value = true
        · rw [if_pos hacc] at hs
          simp only [List.mem_singleton] at hs
          subst hs
          have h24 : it.value = 24 := (accepts_iff_eq it.value).mp hacc
          obtain ⟨d⟩ := (h it (by simp)).toExpr
          rw [h24, show (((24 : Int) : ℚ)) = (24 : ℚ) by norm_num] at d
          exact ⟨d⟩
        · rw [if_neg hacc] at hs
          simp at hs
      | cons it2 rest2 =>
        simp only [search] at hs
        rw [List.mem_flatMap] at hs
        obtain ⟨next, hnext, hs⟩ := hs
        exact ih next (nextLists_ok h next hnext) s hs

/-! ### From `solve` back to the search -/

theorem foldl_insertSol_subset :
    ∀ (l : List (List Char)) (acc : List (List Char)) (s : List Char),
      s ∈ l.foldl (fun acc s => insertSol s acc) acc → s ∈ acc ∨ s ∈ l := by
  intro l
  induction l with
  | nil =>
    intro acc s hs
    exact Or.inl hs
  | cons x xs ih =>
    intro acc s hs
    rcases ih (insertSol x acc) s hs with h | h
    · unfold insertSol at h
      split_ifs at h
      · exact Or.inl h
      · rw [List.mem_append] at h
        rcases h with h | h
        · exact Or.inl h
        · simp only [List.mem_singleton] at h
          subst h
          exact Or.inr (by simp)
    · exact Or.inr (by simp [h])

theorem foundSet_subset {l : List (List Char)} {s : List Char} (h : s ∈ foundSet l) : s ∈ l := by
  rcases foldl_insertSol_subset l [] s h with h' | h'
  · simp at h'
  · exact h'

theorem foldl_fst_subset {σ : Type}
    (g : (List (List Char) × σ) → List Char → (List (List Char) × σ))
    (hg : ∀ st x, (g st x).1 = st.1 ∨ (g st x).1 = st.1 ++ [x]) :
    ∀ (l : List (List Char)) (st : List (List Char) × σ) (s : List Char),
      s ∈ (l.foldl g st).1 → s ∈ st.1 ∨ s ∈ l := by
  intro l
  induction l with
  | nil =>
    intro st s hs
    exact Or.inl hs
  | cons x xs ih =>
    intro st s hs
    rcases ih (g st x) s hs with h | h
    · rcases hg st x with he | he
      · rw [he] at h
        exact Or.inl h
      · rw [he, List.mem_append] at h
        rcases h with h | h
        · exact Or.inl h
        · simp only [List.mem_singleton] at h
          subst h
          exact Or.inr (by simp)
    · exact Or.inr (by simp [h])

/-- Every deduplicated solution was recorded by the search. -/
theorem mem_solve_mem_search {ns : List Int} {s : List Char} (hs : s ∈ solve ns) :
    s ∈ search 4 (ns.map fun n => SItem.mk n (intToChars n) 3) := by
  unfold solve at hs
  by_cases hlen : ns.length ≠ 4
  · rw [if_pos hlen] at hs
    simp at hs
  · rw [if_neg hlen] at hs
    have h1 := foldl_fst_subset
      (fun st sol =>
        let sig := normalize sol
        if sig ∈ st.2 then st else (st.1 ++ [sol], st.2 ++ [sig]))
      (by
        intro st x
        dsimp only
        split_ifs
        · exact Or.inl rfl
        · exact Or.inr rfl)
      _ _ _ hs
    rcases h1 with h1 | h1
    · simp at h1
    · exact foundSet_subset h1

/-- The four initial atoms carry the invariant when the inputs are in
the puzzle range. -/
theorem atoms_ok {ns : List Int} (hns : ∀ n ∈ ns, 1 ≤ n ∧ n ≤ 13) :
    ∀ it ∈ ns.map fun n => SItem.mk n (intToChars n) 3, ItemOK it := by
  intro it hit
  simp only [List.mem_map] at hit
  obtain ⟨n, hn, rfl⟩ := hit
  obtain ⟨h1, h13⟩ := hns n hn
  left
  refine ⟨rfl, ?_⟩
  show Nonempty (FactorToks (tokenize (intToChars n)) ((n : Int) : ℚ))
  rw [tokenize_intToChars h1 h13]
  have d := FactorToks.num n.toNat
  rw [cast_toNat_eq (by omega)] at d
  exact ⟨d⟩

/-- C1: solver soundness.  For every input list of integers in the
puzzle range [1, 13] (in particular every list of exactly four of
them), every expression string returned by `Solver.solve`, evaluated
under standard arithmetic precedence — left-associative, `*` and `/`
binding tighter than `+` and `-`, over exact rational arithmetic —
parses completely and yields exactly 24. -/
theorem solver_soundness (ns : List Int) (hns : ∀ n ∈ ns, 1 ≤ n ∧ n ≤ 13) :
    ∀ s ∈ solve ns, evalString s = some 24 := by
  intro s hs
  obtain ⟨d⟩ := search_sound 4 _ (atoms_ok hns) s (mem_solve_mem_search hs)
  obtain ⟨a, hpa, hv⟩ := bridgeE d (4 * (tokenize s).length + 8) [] trivial trivial (by omega)
  rw [List.append_nil] at hpa
  unfold evalString parse
  rw [hpa]
  exact hv

/-- Witness for C1 at the concrete input `[1, 2, 3, 4]`. -/
theorem solver_soundness_witness :
    (∀ n ∈ ([1, 2, 3, 4] : List Int), 1 ≤ n ∧ n ≤ 13) ∧
    (∀ s ∈ solve [1, 2, 3, 4], evalString s = some 24) :=
  ⟨by decide, solver_soundness [1, 2, 3, 4] (by decide)⟩

end Calc24
